import Mathlib

/-!
Verification of the Bloom filter core (`src/lib.rs`).

The filter state is embedded shallowly: the `Vec<u64>` bit array becomes a
`List ℕ` of words, 64-bit wrapping arithmetic is explicit `% 2 ^ 64`, and the
fallible constructor returns `Except`.  The two base digests produced by
`get_hashes` (Rust's `DefaultHasher`, a deterministic pure function of the
item) are abstracted as a parameter `gh : α → ℕ × ℕ`.  The `f64` sizing
arithmetic in `BloomFilter::new` is idealized over `ℝ` (`Real.log` for
`f64::ln`, `Nat.ceil` for `.ceil() as u64`); every other definition is
computable.
-/

namespace Bloom

/-- Configuration parameter for creating a Bloom filter (from `FilterParams`
in the source; the `f64` rate is idealized as a real number). -/
inductive FilterParams where
  | FalsePositiveRate : ℝ → FilterParams
  | HashCount : ℕ → FilterParams

/-- The single error kind of the design: invalid construction parameters
(the source raises it via `assert!` panics in `BloomFilter::new`). -/
inductive BloomError where
  | InvalidConstructionParameter : BloomError
deriving DecidableEq

/-- The filter state: `bit_vec` is the `Vec<u64>` word array (each word a
natural number; operations only ever store values `< 2 ^ 64` into it),
`bit_count` the total number of bits (m), `hash_fn_count` the number of
simulated hash functions (k). -/
structure BloomFilter where
  bit_vec : List ℕ
  bit_count : ℕ
  hash_fn_count : ℕ
deriving DecidableEq, Repr

/-- Model of `BloomFilter::get_index`: bit index for the i-th hash function by double
hashing.  `h2.wrapping_mul(i)` is `h2 * i % 2 ^ 64`, `h1.wrapping_add(offset)`
is `(h1 + offset) % 2 ^ 64`, then `hash % self.bit_count`. -/
def get_index (f : BloomFilter) (h1 h2 i : ℕ) : ℕ :=
  let offset := h2 * i % 2 ^ 64
  let hash := (h1 + offset) % 2 ^ 64
  hash % f.bit_count

/-- Model of `BloomFilter::get_bit`: vector index and bit mask for the i-th hash
position (`index / 64`, `1 << (index % 64)`). -/
def get_bit (f : BloomFilter) (h1 h2 i : ℕ) : ℕ × ℕ :=
  let bit_index := get_index f h1 h2 i
  let vec_index := bit_index / 64
  let bit_offset := 1 <<< (bit_index % 64)
  (vec_index, bit_offset)

/-- One iteration of the `insert` loop: `self.bit_vec[vec_index] |= mask`. -/
def setBitStep (f : BloomFilter) (h1 h2 i : ℕ) : BloomFilter :=
  { f with
    bit_vec := f.bit_vec.set (get_bit f h1 h2 i).1
      (f.bit_vec.getD (get_bit f h1 h2 i).1 0 ||| (get_bit f h1 h2 i).2) }

/-- Model of `BloomFilter::insert` on the two base digests: for `i in
0..hash_fn_count`, set the derived bit. -/
def insertH (f : BloomFilter) (h1 h2 : ℕ) : BloomFilter :=
  (List.range f.hash_fn_count).foldl (fun g i => setBitStep g h1 h2 i) f

/-- Model of `BloomFilter::contains` on the two base digests: true iff no derived bit
is unset (the source returns `false` on the first unset bit). -/
def containsH (f : BloomFilter) (h1 h2 : ℕ) : Bool :=
  (List.range f.hash_fn_count).all fun i =>
    (f.bit_vec.getD (get_bit f h1 h2 i).1 0 &&& (get_bit f h1 h2 i).2) != 0

/-- Model of `BloomFilter::clear`: every word of the bit array is reset to zero. -/
def clear (f : BloomFilter) : BloomFilter :=
  { f with bit_vec := f.bit_vec.map fun _ => 0 }

/-- Model of `BloomFilter::memory_usage_bytes`: bytes held by the word array.  The
source reports `bit_vec.capacity() * 8`; the vector is created by
`vec![0; num_u64s]` and never grown, so its capacity is its length. -/
def memory_usage_bytes (f : BloomFilter) : ℕ :=
  f.bit_vec.length * 8

/-- Model of `BloomFilter::hash_count`. -/
def hash_count (f : BloomFilter) : ℕ :=
  f.hash_fn_count

/-- Model of `BloomFilter::insert` for an item `x` whose two base digests are given by
the abstract hash function `gh` (modelling `get_hashes`). -/
def insert {α : Type} (gh : α → ℕ × ℕ) (f : BloomFilter) (x : α) : BloomFilter :=
  insertH f (gh x).1 (gh x).2

/-- Model of `BloomFilter::contains` for an item `x` under the abstract hash
function `gh`. -/
def contains {α : Type} (gh : α → ℕ × ℕ) (f : BloomFilter) (x : α) : Bool :=
  containsH f (gh x).1 (gh x).2

/-- The last stage of `BloomFilter::new`: round the derived bit count `m` up
to a multiple of 64 (`num_u64s = (m + 63) / 64`), allocate that many zeroed
words (`vec![0; num_u64s]`), and store `num_u64s * 64` as the true bit
count. -/
def mkFromMK (m k : ℕ) : BloomFilter :=
  let num_u64s := (m + 63) / 64
  { bit_vec := List.replicate num_u64s 0
    bit_count := num_u64s * 64
    hash_fn_count := k }

/-- The derived bit count for a target rate, from `BloomFilter::new`:
`m = ceil(-1.0 * n * p.ln() / (ln2 * ln2))`, idealized over `ℝ`. -/
noncomputable def m_for_rate (n : ℕ) (p : ℝ) : ℕ :=
  ⌈-1 * (n : ℝ) * Real.log p / (Real.log 2 * Real.log 2)⌉₊

/-- The derived hash count for a target rate, from `BloomFilter::new`:
`k = ceil((m / n) * ln2)` where `m` is the un-rounded derived bit count. -/
noncomputable def k_for_rate (n : ℕ) (p : ℝ) : ℕ :=
  ⌈(m_for_rate n p : ℝ) / (n : ℝ) * Real.log 2⌉₊

/-- The derived bit count for a fixed hash count, from `BloomFilter::new`:
`m = ceil((k * n) / ln2)`. -/
noncomputable def m_for_hashes (n k : ℕ) : ℕ :=
  ⌈(k : ℝ) * (n : ℝ) / Real.log 2⌉₊

/-- Model of `BloomFilter::new`.  The `assert!` panics become
`Except.error InvalidConstructionParameter`; the `f64` sizing formulas are
idealized over `ℝ` (see `m_for_rate`, `k_for_rate`, `m_for_hashes`). -/
noncomputable def new (expected_items : ℕ) (params : FilterParams) :
    Except BloomError BloomFilter :=
  if expected_items = 0 then .error .InvalidConstructionParameter
  else
    match params with
    | .FalsePositiveRate p =>
        if 0 < p ∧ p < 1 then
          .ok (mkFromMK (m_for_rate expected_items p)
            (k_for_rate expected_items p))
        else .error .InvalidConstructionParameter
    | .HashCount k =>
        if k = 0 then .error .InvalidConstructionParameter
        else .ok (mkFromMK (m_for_hashes expected_items k) k)

/-- Operations an owner may perform on a filter after construction. -/
inductive Op (α : Type) where
  | ins : α → Op α
  | qry : α → Op α
  | clr : Op α
deriving DecidableEq

/-- State transition for one operation.  `qry` is `contains`, which takes
`&self` and cannot mutate the filter, so it leaves the state unchanged. -/
def applyOp {α : Type} (gh : α → ℕ × ℕ) (f : BloomFilter) : Op α → BloomFilter
  | .ins x => insert gh f x
  | .qry _ => f
  | .clr => clear f

/-- Run a sequence of operations from a given state. -/
def run {α : Type} (gh : α → ℕ × ℕ) (f : BloomFilter) (ops : List (Op α)) :
    BloomFilter :=
  ops.foldl (applyOp gh) f

/-- Whether logical bit `j` of the filter's bit array is set: bit `j % 64`
of word `j / 64` (out-of-range words read as zero). -/
def bitSet (f : BloomFilter) (j : ℕ) : Bool :=
  (f.bit_vec.getD (j / 64) 0).testBit (j % 64)

/-- The index formula exactly as the spec words it:
`(h1 + h2 * i) mod 2 ^ 64 mod bit_count`. -/
def indexSpec (f : BloomFilter) (h1 h2 i : ℕ) : ℕ :=
  (h1 + h2 * i) % 2 ^ 64 % f.bit_count

/-- A validly constructed filter: the bit count matches the word array
(`bits.length * 64`), is positive, and at least one hash function is used. -/
def Wf (f : BloomFilter) : Prop :=
  f.bit_count = f.bit_vec.length * 64 ∧ 0 < f.bit_vec.length ∧
    0 < f.hash_fn_count

/-- The construction invariants of the spec, as a decidable check:
`bit_count` positive and a multiple of 64, `hash_fn_count ≥ 1`, and
`bits.length = bit_count / 64` exactly. -/
def filterInv (f : BloomFilter) : Bool :=
  decide (0 < f.bit_count) && decide (f.bit_count % 64 = 0) &&
    decide (1 ≤ f.hash_fn_count) &&
    decide (f.bit_vec.length = f.bit_count / 64)

/-- Lift a Boolean filter property over a construction result: trivially
true on errors. -/
def exceptAll (P : BloomFilter → Bool) : Except BloomError BloomFilter → Bool
  | .error _ => true
  | .ok f => P f

/-- The parameter combinations `BloomFilter::new` rejects. -/
def invalidInputs (expected_items : ℕ) : FilterParams → Prop
  | .FalsePositiveRate p => expected_items = 0 ∨ p ≤ 0 ∨ 1 ≤ p
  | .HashCount k => expected_items = 0 ∨ k = 0

/-- A small concrete filter used to instantiate hypothesis-bearing
theorems: two words, 128 bits, three hash functions. -/
def F1 : BloomFilter :=
  { bit_vec := [0, 0], bit_count := 128, hash_fn_count := 3 }

/-! ### Word-level helper lemmas -/

theorem getD_set_self (l : List ℕ) (i v : ℕ) (h : i < l.length) :
    (l.set i v).getD i 0 = v := by
  rw [List.getD_eq_getElem?_getD, List.getElem?_set_self h]
  rfl

theorem getD_set_ne (l : List ℕ) (i j v : ℕ) (h : i ≠ j) :
    (l.set i v).getD j 0 = l.getD j 0 := by
  rw [List.getD_eq_getElem?_getD, List.getElem?_set_ne h,
    ← List.getD_eq_getElem?_getD]

theorem set_getD_self (l : List ℕ) (i : ℕ) : l.set i (l.getD i 0) = l := by
  rcases Nat.lt_or_ge i l.length with h | h
  · apply List.ext_getElem?
    intro j
    rw [List.getElem?_set]
    rcases eq_or_ne i j with rfl | hne
    · rw [if_pos rfl, if_pos h, List.getD_eq_getElem?_getD,
        List.getElem?_eq_getElem h]
      rfl
    · rw [if_neg hne]
  · exact List.set_eq_of_length_le h

theorem getD_map_zero (l : List ℕ) (i : ℕ) :
    (l.map fun _ => 0).getD i 0 = 0 := by
  rw [List.getD_eq_getElem?_getD, List.getElem?_map]
  cases l[i]? <;> rfl

theorem land_two_pow_ne_zero (w b : ℕ) :
    ((w &&& 2 ^ b) != 0) = w.testBit b := by
  rw [Nat.and_two_pow]
  cases h : w.testBit b <;> simp [h]

theorem or_two_pow_of_testBit (w b : ℕ) (h : w.testBit b = true) :
    w ||| 2 ^ b = w := by
  apply Nat.eq_of_testBit_eq
  intro j
  rw [Nat.testBit_lor]
  rcases eq_or_ne b j with rfl | hne
  · simp [h]
  · simp [Nat.testBit_two_pow_of_ne hne]

/-! ### Shape of one set-bit step -/

theorem get_bit_eq (f : BloomFilter) (hh1 hh2 i : ℕ) :
    get_bit f hh1 hh2 i =
      (get_index f hh1 hh2 i / 64, 2 ^ (get_index f hh1 hh2 i % 64)) := by
  simp [get_bit, Nat.shiftLeft_eq]

theorem get_index_congr {f g : BloomFilter} (h : g.bit_count = f.bit_count)
    (hh1 hh2 i : ℕ) : get_index g hh1 hh2 i = get_index f hh1 hh2 i := by
  simp [get_index, h]

theorem setBitStep_bit_count (f : BloomFilter) (hh1 hh2 i : ℕ) :
    (setBitStep f hh1 hh2 i).bit_count = f.bit_count := rfl

theorem setBitStep_hash_fn_count (f : BloomFilter) (hh1 hh2 i : ℕ) :
    (setBitStep f hh1 hh2 i).hash_fn_count = f.hash_fn_count := rfl

theorem setBitStep_length (f : BloomFilter) (hh1 hh2 i : ℕ) :
    (setBitStep f hh1 hh2 i).bit_vec.length = f.bit_vec.length := by
  simp [setBitStep]

theorem setBitStep_bit_vec (f : BloomFilter) (hh1 hh2 i : ℕ) :
    (setBitStep f hh1 hh2 i).bit_vec =
      f.bit_vec.set (get_index f hh1 hh2 i / 64)
        (f.bit_vec.getD (get_index f hh1 hh2 i / 64) 0 |||
          2 ^ (get_index f hh1 hh2 i % 64)) := by
  simp [setBitStep, get_bit_eq]

theorem bitSet_setBitStep_mono (f : BloomFilter) (hh1 hh2 i j : ℕ)
    (h : bitSet f j = true) : bitSet (setBitStep f hh1 hh2 i) j = true := by
  unfold bitSet at h ⊢
  rw [setBitStep_bit_vec]
  rcases eq_or_ne (get_index f hh1 hh2 i / 64) (j / 64) with he | hne
  · rw [← he] at h ⊢
    rcases Nat.lt_or_ge (get_index f hh1 hh2 i / 64) f.bit_vec.length
      with hlt | hge
    · rw [getD_set_self _ _ _ hlt, Nat.testBit_lor, h, Bool.true_or]
    · rw [List.set_eq_of_length_le hge]
      exact h
  · rw [getD_set_ne _ _ _ _ hne]
    exact h

theorem bitSet_setBitStep_self (f : BloomFilter) (hh1 hh2 i : ℕ)
    (hlt : get_index f hh1 hh2 i / 64 < f.bit_vec.length) :
    bitSet (setBitStep f hh1 hh2 i) (get_index f hh1 hh2 i) = true := by
  unfold bitSet
  rw [setBitStep_bit_vec, getD_set_self _ _ _ hlt, Nat.testBit_lor,
    Nat.testBit_two_pow_self, Bool.or_true]

theorem bitSet_setBitStep_only (f : BloomFilter) (hh1 hh2 i j : ℕ)
    (h : bitSet (setBitStep f hh1 hh2 i) j = true) :
    bitSet f j = true ∨ j = get_index f hh1 hh2 i := by
  unfold bitSet at h
  rw [setBitStep_bit_vec] at h
  rcases eq_or_ne (get_index f hh1 hh2 i / 64) (j / 64) with he | hne
  · rcases Nat.lt_or_ge (get_index f hh1 hh2 i / 64) f.bit_vec.length
      with hlt | hge
    · rw [← he, getD_set_self _ _ _ hlt, Nat.testBit_lor] at h
      rcases Bool.or_eq_true_iff.mp h with h2 | h2
      · left
        rw [bitSet, ← he]
        exact h2
      · right
        have hbit : get_index f hh1 hh2 i % 64 = j % 64 := by
          by_contra hne2
          rw [Nat.testBit_two_pow_of_ne hne2] at h2
          exact Bool.false_ne_true h2
        omega
    · rw [List.set_eq_of_length_le hge] at h
      exact Or.inl h
  · rw [getD_set_ne _ _ _ _ hne] at h
    exact Or.inl h

theorem setBitStep_id (f : BloomFilter) (hh1 hh2 i : ℕ)
    (h : bitSet f (get_index f hh1 hh2 i) = true ∨
      f.bit_vec.length ≤ get_index f hh1 hh2 i / 64) :
    setBitStep f hh1 hh2 i = f := by
  have hshape : setBitStep f hh1 hh2 i =
      { f with
        bit_vec := f.bit_vec.set (get_index f hh1 hh2 i / 64)
          (f.bit_vec.getD (get_index f hh1 hh2 i / 64) 0 |||
            2 ^ (get_index f hh1 hh2 i % 64)) } := by
    simp [setBitStep, get_bit_eq]
  rcases h with h | h
  · unfold bitSet at h
    rw [hshape, or_two_pow_of_testBit _ _ h, set_getD_self]
  · rw [hshape, List.set_eq_of_length_le h]

/-! ### The insert loop as a fold -/

theorem foldl_setBitStep_bit_count (hh1 hh2 : ℕ) (l : List ℕ)
    (f : BloomFilter) :
    (l.foldl (fun g i => setBitStep g hh1 hh2 i) f).bit_count = f.bit_count := by
  induction l generalizing f with
  | nil => rfl
  | cons a t ih => rw [List.foldl_cons, ih, setBitStep_bit_count]

theorem foldl_setBitStep_hash_fn_count (hh1 hh2 : ℕ) (l : List ℕ)
    (f : BloomFilter) :
    (l.foldl (fun g i => setBitStep g hh1 hh2 i) f).hash_fn_count =
      f.hash_fn_count := by
  induction l generalizing f with
  | nil => rfl
  | cons a t ih => rw [List.foldl_cons, ih, setBitStep_hash_fn_count]

theorem foldl_setBitStep_length (hh1 hh2 : ℕ) (l : List ℕ) (f : BloomFilter) :
    (l.foldl (fun g i => setBitStep g hh1 hh2 i) f).bit_vec.length =
      f.bit_vec.length := by
  induction l generalizing f with
  | nil => rfl
  | cons a t ih => rw [List.foldl_cons, ih, setBitStep_length]

theorem bitSet_foldl_mono (hh1 hh2 : ℕ) (l : List ℕ) (f : BloomFilter)
    (j : ℕ) (h : bitSet f j = true) :
    bitSet (l.foldl (fun g i => setBitStep g hh1 hh2 i) f) j = true := by
  induction l generalizing f with
  | nil => exact h
  | cons a t ih => exact ih _ (bitSet_setBitStep_mono _ _ _ _ _ h)

theorem bitSet_foldl_sets (hh1 hh2 : ℕ) (l : List ℕ) (f : BloomFilter)
    (i : ℕ) (hi : i ∈ l)
    (hb : get_index f hh1 hh2 i / 64 < f.bit_vec.length) :
    bitSet (l.foldl (fun g i2 => setBitStep g hh1 hh2 i2) f)
      (get_index f hh1 hh2 i) = true := by
  induction l generalizing f with
  | nil => cases hi
  | cons a t ih =>
    rw [List.foldl_cons]
    rcases List.mem_cons.mp hi with rfl | hmem
    · exact bitSet_foldl_mono _ _ _ _ _ (bitSet_setBitStep_self _ _ _ _ hb)
    · have hidx := get_index_congr (setBitStep_bit_count f hh1 hh2 a) hh1 hh2 i
      rw [← hidx]
      apply ih _ hmem
      rw [hidx, setBitStep_length]
      exact hb

theorem bitSet_foldl_only (hh1 hh2 : ℕ) (l : List ℕ) (f : BloomFilter)
    (j : ℕ)
    (h : bitSet (l.foldl (fun g i => setBitStep g hh1 hh2 i) f) j = true) :
    bitSet f j = true ∨ ∃ i ∈ l, j = get_index f hh1 hh2 i := by
  induction l generalizing f with
  | nil => exact Or.inl h
  | cons a t ih =>
    rw [List.foldl_cons] at h
    rcases ih _ h with hset | ⟨i, hi, hj⟩
    · rcases bitSet_setBitStep_only _ _ _ _ _ hset with h3 | h3
      · exact Or.inl h3
      · exact Or.inr ⟨a, List.mem_cons_self _ _, h3⟩
    · have hidx := get_index_congr (setBitStep_bit_count f hh1 hh2 a) hh1 hh2 i
      exact Or.inr ⟨i, List.mem_cons_of_mem _ hi, hj.trans hidx⟩

theorem foldl_setBitStep_id (hh1 hh2 : ℕ) (l : List ℕ) (f : BloomFilter)
    (h : ∀ i ∈ l, setBitStep f hh1 hh2 i = f) :
    l.foldl (fun g i => setBitStep g hh1 hh2 i) f = f := by
  induction l with
  | nil => rfl
  | cons a t ih =>
    rw [List.foldl_cons, h a (List.mem_cons_self _ _)]
    exact ih fun i hi => h i (List.mem_cons_of_mem _ hi)

/-! ### Facts about insertH, containsH, clear -/

theorem insertH_bit_count (f : BloomFilter) (hh1 hh2 : ℕ) :
    (insertH f hh1 hh2).bit_count = f.bit_count :=
  foldl_setBitStep_bit_count hh1 hh2 _ f

theorem insertH_hash_fn_count (f : BloomFilter) (hh1 hh2 : ℕ) :
    (insertH f hh1 hh2).hash_fn_count = f.hash_fn_count :=
  foldl_setBitStep_hash_fn_count hh1 hh2 _ f

theorem insertH_length (f : BloomFilter) (hh1 hh2 : ℕ) :
    (insertH f hh1 hh2).bit_vec.length = f.bit_vec.length :=
  foldl_setBitStep_length hh1 hh2 _ f

theorem bitSet_insertH_mono (f : BloomFilter) (hh1 hh2 j : ℕ)
    (h : bitSet f j = true) : bitSet (insertH f hh1 hh2) j = true :=
  bitSet_foldl_mono hh1 hh2 _ f j h

theorem bitSet_insertH_sets (f : BloomFilter) (hh1 hh2 i : ℕ)
    (hik : i < f.hash_fn_count)
    (hb : get_index f hh1 hh2 i / 64 < f.bit_vec.length) :
    bitSet (insertH f hh1 hh2) (get_index f hh1 hh2 i) = true :=
  bitSet_foldl_sets hh1 hh2 _ f i (List.mem_range.mpr hik) hb

theorem bitSet_insertH_only (f : BloomFilter) (hh1 hh2 j : ℕ)
    (h : bitSet (insertH f hh1 hh2) j = true) :
    bitSet f j = true ∨
      ∃ i < f.hash_fn_count, j = get_index f hh1 hh2 i := by
  rcases bitSet_foldl_only hh1 hh2 _ f j h with h2 | ⟨i, hi, hj⟩
  · exact Or.inl h2
  · exact Or.inr ⟨i, List.mem_range.mp hi, hj⟩

theorem contains_body_eq (f : BloomFilter) (hh1 hh2 i : ℕ) :
    ((f.bit_vec.getD (get_bit f hh1 hh2 i).1 0 &&&
        (get_bit f hh1 hh2 i).2) != 0) =
      bitSet f (get_index f hh1 hh2 i) := by
  rw [get_bit_eq]
  exact land_two_pow_ne_zero _ _

theorem containsH_iff (f : BloomFilter) (hh1 hh2 : ℕ) :
    containsH f hh1 hh2 = true ↔
      ∀ i < f.hash_fn_count, bitSet f (get_index f hh1 hh2 i) = true := by
  unfold containsH
  rw [List.all_eq_true]
  constructor
  · intro h i hik
    have h2 := h i (List.mem_range.mpr hik)
    rwa [contains_body_eq] at h2
  · intro h i hik
    rw [contains_body_eq]
    exact h i (List.mem_range.mp hik)

theorem clear_bit_count (f : BloomFilter) : (clear f).bit_count = f.bit_count :=
  rfl

theorem clear_hash_fn_count (f : BloomFilter) :
    (clear f).hash_fn_count = f.hash_fn_count := rfl

theorem clear_length (f : BloomFilter) :
    (clear f).bit_vec.length = f.bit_vec.length := by
  simp [clear]

theorem bitSet_clear (f : BloomFilter) (j : ℕ) :
    bitSet (clear f) j = false := by
  unfold bitSet clear
  simp [getD_map_zero]

/-! ### Well-formedness gives in-bounds accesses -/

theorem wf_bit_count_pos (f : BloomFilter) (hw : Wf f) : 0 < f.bit_count := by
  rw [hw.1]
  exact Nat.mul_pos hw.2.1 (by norm_num)

theorem get_index_lt_bit_count (f : BloomFilter) (hh1 hh2 i : ℕ)
    (h : 0 < f.bit_count) : get_index f hh1 hh2 i < f.bit_count := by
  unfold get_index
  exact Nat.mod_lt _ h

theorem vec_index_lt (f : BloomFilter) (hh1 hh2 i : ℕ) (hw : Wf f) :
    get_index f hh1 hh2 i / 64 < f.bit_vec.length := by
  have h := get_index_lt_bit_count f hh1 hh2 i (wf_bit_count_pos f hw)
  rw [hw.1] at h
  exact (Nat.div_lt_iff_lt_mul (by norm_num)).mpr h

/-! ### Operation sequences -/

theorem applyOp_bit_count {α : Type} (gh : α → ℕ × ℕ) (f : BloomFilter)
    (op : Op α) : (applyOp gh f op).bit_count = f.bit_count := by
  cases op with
  | ins x => exact insertH_bit_count f _ _
  | qry _ => rfl
  | clr => rfl

theorem applyOp_hash_fn_count {α : Type} (gh : α → ℕ × ℕ) (f : BloomFilter)
    (op : Op α) : (applyOp gh f op).hash_fn_count = f.hash_fn_count := by
  cases op with
  | ins x => exact insertH_hash_fn_count f _ _
  | qry _ => rfl
  | clr => rfl

theorem run_bit_count {α : Type} (gh : α → ℕ × ℕ) (ops : List (Op α))
    (f : BloomFilter) : (run gh f ops).bit_count = f.bit_count := by
  induction ops generalizing f with
  | nil => rfl
  | cons a t ih =>
    rw [run, List.foldl_cons, ← run, ih, applyOp_bit_count]

theorem run_hash_fn_count {α : Type} (gh : α → ℕ × ℕ) (ops : List (Op α))
    (f : BloomFilter) : (run gh f ops).hash_fn_count = f.hash_fn_count := by
  induction ops generalizing f with
  | nil => rfl
  | cons a t ih =>
    rw [run, List.foldl_cons, ← run, ih, applyOp_hash_fn_count]

theorem bitSet_run_mono {α : Type} (gh : α → ℕ × ℕ) (ops : List (Op α))
    (f : BloomFilter) (j : ℕ) (hnc : Op.clr ∉ ops)
    (h : bitSet f j = true) : bitSet (run gh f ops) j = true := by
  induction ops generalizing f with
  | nil => exact h
  | cons a t ih =>
    rw [run, List.foldl_cons, ← run]
    have ha : a ≠ Op.clr := fun he => hnc (he ▸ List.mem_cons_self _ _)
    apply ih _ (fun hm => hnc (List.mem_cons_of_mem _ hm))
    cases a with
    | ins x => exact bitSet_insertH_mono _ _ _ _ h
    | qry _ => exact h
    | clr => exact absurd rfl ha

theorem applyOp_length {α : Type} (gh : α → ℕ × ℕ) (f : BloomFilter)
    (op : Op α) : (applyOp gh f op).bit_vec.length = f.bit_vec.length := by
  cases op with
  | ins x => exact insertH_length f _ _
  | qry _ => rfl
  | clr => exact clear_length f

/-! ### Construction facts -/

theorem mkFromMK_filterInv (m k : ℕ) (hm : 0 < m) (hk : 0 < k) :
    filterInv (mkFromMK m k) = true := by
  simp only [filterInv, mkFromMK, List.length_replicate, Bool.and_eq_true,
    decide_eq_true_eq]
  omega

theorem m_for_rate_pos (n : ℕ) (p : ℝ) (hn : 0 < n) (h0 : 0 < p)
    (h1 : p < 1) : 0 < m_for_rate n p := by
  apply Nat.ceil_pos.mpr
  apply div_pos
  · have hlog := Real.log_neg h0 h1
    have hn2 : (0:ℝ) < n := by exact_mod_cast hn
    nlinarith
  · have hl2 := Real.log_pos (by norm_num : (1:ℝ) < 2)
    exact mul_pos hl2 hl2

theorem k_for_rate_pos (n : ℕ) (p : ℝ) (hn : 0 < n)
    (hm : 0 < m_for_rate n p) : 0 < k_for_rate n p := by
  apply Nat.ceil_pos.mpr
  apply mul_pos
  · apply div_pos
    · exact_mod_cast hm
    · exact_mod_cast hn
  · exact Real.log_pos (by norm_num)

theorem m_for_hashes_pos (n k : ℕ) (hn : 0 < n) (hk : 0 < k) :
    0 < m_for_hashes n k := by
  apply Nat.ceil_pos.mpr
  apply div_pos
  · apply mul_pos <;> exact_mod_cast ‹_›
  · exact Real.log_pos (by norm_num)

/-! ### Claim theorems -/

/-- Concrete item-hash function and operation list used to instantiate
hypothesis-bearing theorems. -/
def ghW : ℕ → ℕ × ℕ := fun n => (n, 2 * n + 1)

/-- A concrete operation sequence with inserts and queries and no clear. -/
def opsW : List (Op ℕ) := [Op.ins 5, Op.qry 9, Op.ins 7]

/-- A concrete filter with one word and bit 0 already set. -/
def F2 : BloomFilter :=
  { bit_vec := [1], bit_count := 64, hash_fn_count := 1 }

/-- Claim C1 (no false negatives): on a validly constructed filter, once an
item is inserted, every later `contains` for that item returns `true`
across any sequence of further inserts and queries that contains no
`clear`. -/
theorem no_false_negatives {α : Type} (gh : α → ℕ × ℕ) (f : BloomFilter)
    (x : α) (ops : List (Op α)) (hw : Wf f) (hnc : Op.clr ∉ ops) :
    contains gh (run gh (insert gh f x) ops) x = true := by
  have hbc : (run gh (insert gh f x) ops).bit_count = f.bit_count := by
    rw [run_bit_count]
    exact insertH_bit_count f _ _
  have hk : (run gh (insert gh f x) ops).hash_fn_count = f.hash_fn_count := by
    rw [run_hash_fn_count]
    exact insertH_hash_fn_count f _ _
  rw [contains, containsH_iff]
  intro i hik
  rw [get_index_congr hbc]
  apply bitSet_run_mono gh ops _ _ hnc
  exact bitSet_insertH_sets f _ _ i (hk ▸ hik) (vec_index_lt f _ _ i hw)

/-- Witness for C1 at a concrete filter, item, and operation list. -/
theorem no_false_negatives_witness :
    Wf F1 ∧ Op.clr ∉ opsW ∧
      contains ghW (run ghW (insert ghW F1 3) opsW) 3 = true :=
  ⟨⟨rfl, by decide, by decide⟩, by decide,
    no_false_negatives ghW F1 3 opsW ⟨rfl, by decide, by decide⟩ (by decide)⟩

/-- Claim C2 (clear resets fully): immediately after `clear`, `contains`
returns `false` for every item, while `bit_count` and `hash_fn_count` are
unchanged. -/
theorem clear_resets {α : Type} (gh : α → ℕ × ℕ) (f : BloomFilter) (x : α)
    (hk : 0 < f.hash_fn_count) :
    contains gh (clear f) x = false ∧
      (clear f).bit_count = f.bit_count ∧
      (clear f).hash_fn_count = f.hash_fn_count := by
  refine ⟨?_, rfl, rfl⟩
  rw [contains]
  cases hc : containsH (clear f) (gh x).1 (gh x).2
  · rfl
  · have h := (containsH_iff _ _ _).mp hc 0 hk
    rw [bitSet_clear] at h
    exact absurd h (by simp)

/-- Witness for C2: a cleared concrete filter reports `false`. -/
theorem clear_resets_witness :
    0 < F1.hash_fn_count ∧ contains ghW (clear F1) 9 = false :=
  ⟨by decide, (clear_resets ghW F1 9 (by decide)).1⟩

/-- Claim C6 (monotone bits between clears): any operation other than
`clear` — an insert of any item or a query — keeps every set bit set. -/
theorem bits_monotone {α : Type} (gh : α → ℕ × ℕ) (f : BloomFilter)
    (op : Op α) (j : ℕ) (hop : op ≠ Op.clr) (h : bitSet f j = true) :
    bitSet (applyOp gh f op) j = true := by
  cases op with
  | ins x => exact bitSet_insertH_mono _ _ _ _ h
  | qry _ => exact h
  | clr => exact absurd rfl hop

/-- Witness for C6: bit 0 of a concrete filter stays set across an
insert. -/
theorem bits_monotone_witness :
    (Op.ins 4 ≠ (Op.clr : Op ℕ)) ∧ bitSet F2 0 = true ∧
      bitSet (applyOp ghW F2 (Op.ins 4)) 0 = true :=
  ⟨by decide, by decide,
    bits_monotone ghW F2 (Op.ins 4) 0 (by decide) (by decide)⟩

theorem insertH_idem (f : BloomFilter) (hh1 hh2 : ℕ) :
    insertH (insertH f hh1 hh2) hh1 hh2 = insertH f hh1 hh2 := by
  have hk := insertH_hash_fn_count f hh1 hh2
  have hbc := insertH_bit_count f hh1 hh2
  have hlen := insertH_length f hh1 hh2
  conv_lhs => rw [insertH]
  rw [hk]
  apply foldl_setBitStep_id
  intro i hi
  apply setBitStep_id
  rw [get_index_congr hbc]
  rcases Nat.lt_or_ge (get_index f hh1 hh2 i / 64) f.bit_vec.length
    with hlt | hge
  · exact Or.inl (bitSet_insertH_sets f hh1 hh2 i (List.mem_range.mp hi) hlt)
  · right
    rw [hlen]
    exact hge

/-- Claim C7 (insert is idempotent): inserting the same item twice in
succession yields exactly the same filter state as inserting it once. -/
theorem insert_idempotent {α : Type} (gh : α → ℕ × ℕ) (f : BloomFilter)
    (x : α) : insert gh (insert gh f x) x = insert gh f x :=
  insertH_idem f (gh x).1 (gh x).2

/-- Claim C9 (determinism of contains): a sequence made only of queries
leaves the filter state unchanged, so any two `contains` calls on a fixed
state and item return the same result. -/
theorem contains_deterministic {α : Type} (gh : α → ℕ × ℕ)
    (f : BloomFilter) (x : α) (ops : List (Op α))
    (h : ∀ op ∈ ops, ∃ y, op = Op.qry y) :
    run gh f ops = f ∧ contains gh (run gh f ops) x = contains gh f x := by
  have hrun : run gh f ops = f := by
    induction ops with
    | nil => rfl
    | cons a t ih =>
      rcases h a (List.mem_cons_self _ _) with ⟨y, rfl⟩
      rw [run, List.foldl_cons, ← run]
      exact ih fun op hop => h op (List.mem_cons_of_mem _ hop)
  exact ⟨hrun, by rw [hrun]⟩

/-- Witness for C9 at a concrete query-only operation list. -/
theorem contains_deterministic_witness :
    run ghW F1 [Op.qry 4, Op.qry 8] = F1 :=
  (contains_deterministic ghW F1 4 [Op.qry 4, Op.qry 8]
    (by
      intro op hop
      fin_cases hop
      · exact ⟨4, rfl⟩
      · exact ⟨8, rfl⟩)).1

/-- Claim C10 (memory-access safety): on a validly constructed filter the
modulus `bit_count` is nonzero, every derived bit index is below
`bit_count`, the shift amount is below 64, and the word index is below
`bits.length`, so all array accesses of insert and contains are in
bounds. -/
theorem access_safety (f : BloomFilter) (hh1 hh2 i : ℕ) (hw : Wf f) :
    0 < f.bit_count ∧
      get_index f hh1 hh2 i < f.bit_count ∧
      get_index f hh1 hh2 i % 64 < 64 ∧
      (get_bit f hh1 hh2 i).1 < f.bit_vec.length := by
  refine ⟨wf_bit_count_pos f hw,
    get_index_lt_bit_count f hh1 hh2 i (wf_bit_count_pos f hw),
    Nat.mod_lt _ (by norm_num), ?_⟩
  rw [get_bit_eq]
  exact vec_index_lt f hh1 hh2 i hw

/-- Witness for C10 at a concrete filter and digests. -/
theorem access_safety_witness :
    Wf F1 ∧ (get_bit F1 17 5 2).1 < F1.bit_vec.length :=
  ⟨⟨rfl, by decide, by decide⟩,
    (access_safety F1 17 5 2 ⟨rfl, by decide, by decide⟩).2.2.2⟩

/-- Claim C5 (index derivation and bit addressing): the derived index is
`(h1 + h2 * i) mod 2^64 mod bit_count` with wrapping arithmetic, the bit
touched is word `index / 64` under mask `2 ^ (index mod 64)`, and insert
and contains address exactly the k bits so derived: contains is true iff
all of them are set, and insert sets exactly them. -/
theorem index_derivation_and_addressing (f : BloomFilter) (hh1 hh2 i : ℕ) :
    get_index f hh1 hh2 i = indexSpec f hh1 hh2 i ∧
      get_bit f hh1 hh2 i =
        (get_index f hh1 hh2 i / 64, 2 ^ (get_index f hh1 hh2 i % 64)) ∧
      (containsH f hh1 hh2 = true ↔
        ∀ i2 < f.hash_fn_count,
          bitSet f (get_index f hh1 hh2 i2) = true) ∧
      (Wf f → ∀ j, (bitSet (insertH f hh1 hh2) j = true ↔
        bitSet f j = true ∨
          ∃ i2 < f.hash_fn_count, j = get_index f hh1 hh2 i2)) := by
  refine ⟨?_, get_bit_eq f hh1 hh2 i, containsH_iff f hh1 hh2, ?_⟩
  · show (hh1 + hh2 * i % 2 ^ 64) % 2 ^ 64 % f.bit_count =
      (hh1 + hh2 * i) % 2 ^ 64 % f.bit_count
    rw [Nat.add_mod_mod]
  · intro hw j
    constructor
    · exact bitSet_insertH_only f hh1 hh2 j
    · rintro (h | ⟨i2, hi2, rfl⟩)
      · exact bitSet_insertH_mono f hh1 hh2 j h
      · exact bitSet_insertH_sets f hh1 hh2 i2 hi2
          (vec_index_lt f hh1 hh2 i2 hw)

/-- Witness for C5: on a concrete well-formed filter, insert sets the
derived bit. -/
theorem index_derivation_and_addressing_witness :
    Wf F1 ∧ bitSet (insertH F1 17 5) (get_index F1 17 5 0) = true :=
  ⟨⟨rfl, by decide, by decide⟩,
    ((index_derivation_and_addressing F1 17 5 0).2.2.2
        ⟨rfl, by decide, by decide⟩ (get_index F1 17 5 0)).mpr
      (Or.inr ⟨0, by decide, rfl⟩)⟩

/-- Claim C8 (memory usage reporting): `memory_usage_bytes` returns the
bytes of the backing word array, `bits.length * 8`, which on a validly
constructed filter equals `bit_count / 8`. -/
theorem memory_usage_reporting (f : BloomFilter) (hw : Wf f) :
    memory_usage_bytes f = f.bit_vec.length * 8 ∧
      memory_usage_bytes f = f.bit_count / 8 := by
  refine ⟨rfl, ?_⟩
  rw [memory_usage_bytes, hw.1]
  omega

/-- Witness for C8 at a concrete filter. -/
theorem memory_usage_reporting_witness :
    Wf F1 ∧ memory_usage_bytes F1 = F1.bit_count / 8 :=
  ⟨⟨rfl, by decide, by decide⟩,
    (memory_usage_reporting F1 ⟨rfl, by decide, by decide⟩).2⟩

/-- Claim C3 (parameter rejection): construction fails with
`InvalidConstructionParameter` exactly when the expected item count is
zero, the rate is outside `(0, 1)`, or the fixed hash count is zero; on
every other input it returns a filter. -/
theorem construction_rejection (n : ℕ) (params : FilterParams) :
    (new n params = .error .InvalidConstructionParameter ↔
      invalidInputs n params) ∧
    ((∃ f, new n params = .ok f) ↔ ¬ invalidInputs n params) := by
  have herr : new n params = .error .InvalidConstructionParameter ↔
      invalidInputs n params := by
    rcases params with p | k
    · by_cases hn : n = 0
      · simp [new, hn, invalidInputs]
      · by_cases hp : 0 < p ∧ p < 1
        · simp [new, hn, hp.1, hp.2, hp.1.not_le, hp.2.not_le,
            invalidInputs]
        · have hd : p ≤ 0 ∨ 1 ≤ p := by
            rcases not_and_or.mp hp with h | h
            · exact Or.inl (not_lt.mp h)
            · exact Or.inr (not_lt.mp h)
          simp [new, hn, hp, invalidInputs, hd]
    · by_cases hn : n = 0
      · simp [new, hn, invalidInputs]
      · by_cases hk : k = 0
        · simp [new, hn, hk, invalidInputs]
        · simp [new, hn, hk, invalidInputs]
  refine ⟨herr, ?_⟩
  rcases hnew : new n params with e | f
  · cases e
    have hinv : invalidInputs n params := herr.mp hnew
    simp [hnew, hinv]
  · have hninv : ¬ invalidInputs n params := by
      intro hinv
      exact Except.noConfusion ((herr.mpr hinv).symm.trans hnew)
    simp [hnew, hninv]

/-- Claim C4 (sizing invariants): every successfully constructed filter has
a positive `bit_count` that is a multiple of 64, at least one hash
function, and a word array of exactly `bit_count / 64` entries;
`HashCount k` yields exactly `k` hash functions; and every operation
preserves the invariants. -/
theorem sizing_invariants :
    (∀ (n : ℕ) (params : FilterParams),
      exceptAll filterInv (new n params) = true) ∧
    (∀ n k : ℕ,
      exceptAll (fun f => f.hash_fn_count == k)
        (new n (.HashCount k)) = true) ∧
    (∀ {α : Type} (gh : α → ℕ × ℕ) (f : BloomFilter) (op : Op α),
      filterInv f = true → filterInv (applyOp gh f op) = true) := by
  refine ⟨?_, ?_, ?_⟩
  · intro n params
    rcases params with p | k
    · by_cases hn : n = 0
      · simp [new, hn, exceptAll]
      · by_cases hp : 0 < p ∧ p < 1
        · have hm := m_for_rate_pos n p (Nat.pos_of_ne_zero hn) hp.1 hp.2
          simp only [new, if_neg hn, if_pos hp, exceptAll]
          exact mkFromMK_filterInv _ _ hm
            (k_for_rate_pos n p (Nat.pos_of_ne_zero hn) hm)
        · simp [new, hn, hp, exceptAll]
    · by_cases hn : n = 0
      · simp [new, hn, exceptAll]
      · by_cases hk : k = 0
        · simp [new, hn, hk, exceptAll]
        · simp only [new, if_neg hn, if_neg hk, exceptAll]
          exact mkFromMK_filterInv _ _
            (m_for_hashes_pos n k (Nat.pos_of_ne_zero hn)
              (Nat.pos_of_ne_zero hk))
            (Nat.pos_of_ne_zero hk)
  · intro n k
    by_cases hn : n = 0
    · simp [new, hn, exceptAll]
    · by_cases hk : k = 0
      · simp [new, hn, hk, exceptAll]
      · simp [new, hn, hk, exceptAll, mkFromMK]
  · intro α gh f op hf
    have hbc := applyOp_bit_count gh f op
    have hk := applyOp_hash_fn_count gh f op
    have hlen := applyOp_length gh f op
    simp only [filterInv, hbc, hk, hlen]
    exact hf

/-- Witness for C4: the operation-preservation part applied to a concrete
filter and insert. -/
theorem sizing_invariants_witness :
    filterInv F1 = true ∧ filterInv (applyOp ghW F1 (Op.ins 2)) = true :=
  ⟨by decide, sizing_invariants.2.2 ghW F1 (Op.ins 2) (by decide)⟩

end Bloom
